import Mathlib

/-!
Shallow embedding of the `based` crate (custom numeral systems with
single-character digits), from `src/src/lib.rs` and `src/src/single_base.rs`.

Modelling conventions:
- `usize` is 64 bits; machine arithmetic on the decode accumulator is modelled
  as `Nat` arithmetic reduced modulo `2 ^ 64` (release-mode wrap-around).
- The `HashMap<char, usize>` reverse lookup is modelled as an association list
  ordered so that `List.lookup` (first match) returns what the hash map holds:
  an insertion for a key that is already present overwrites the old entry, so
  entries are kept in reverse insertion order.
- The `while div > 0` loop of `digits`/`encode` is modelled with explicit fuel:
  `none` means the call did not return normally (for radix at least 2 a
  sufficient fuel always exists; for radix 1 and a nonzero value no fuel
  suffices, modelling the infinite loop; for radix 0 the out-of-range index on
  the empty digit table models the division-by-zero panic).
- Fallible operations return `Except` / `Option`.
-/

namespace Based

/-- Bit width of `usize` on the modelled (64-bit) platform. -/
def usizeBits : Nat := 64

/-- Number of values of `usize`, i.e. `2 ^ 64`; the decode accumulator wraps modulo this. -/
def usizeSize : Nat := 2 ^ usizeBits

/-- Embeds `enum StrError` from src/src/lib.rs (lines 28-33): the error type of
`from_str`/`decode`, either an unknown character or a failed int-to-int
conversion (`TryFromIntError`, which carries no data we need). -/
inductive StrError where
  | UnknownChar (c : Char)
  | Try
  deriving DecidableEq, Repr

/-- Embeds `struct DuplicateCharacterError` from src/src/single_base.rs
(lines 39-44): the duplicated character and its two zero-based positions. -/
structure DuplicateCharacterError where
  dup : Char
  first : Nat
  second : Nat
  deriving DecidableEq, Repr

/-- Embeds `struct Base` from src/src/lib.rs (lines 61-64) and
src/src/single_base.rs (lines 24-27): the ordered digit characters and the
reverse lookup map (association list standing for the `HashMap<char, usize>`,
first match wins, see the module docstring). -/
structure Base where
  base : List Char
  vals : List (Char × Nat)
  deriving DecidableEq, Repr

/-- Lookup of a character in the reverse map, i.e. `self.vals.get(&c)`. -/
def Base.getVal (b : Base) (c : Char) : Option Nat :=
  b.vals.lookup c

/-- Helper embedding `base.chars().enumerate().map(|(i, c)| (c, i)).collect()`
into a `HashMap` (src/src/lib.rs lines 91-95): pairs in reverse enumeration
order starting at index `i`, so that a later occurrence of a character shadows
an earlier one under `List.lookup`. -/
def mapOfFrom (i : Nat) : List Char → List (Char × Nat)
  | [] => []
  | c :: rest => mapOfFrom (i + 1) rest ++ [(c, i)]

/-- The reverse lookup map of a digit string, indices starting at 0. -/
def mapOf (s : List Char) : List (Char × Nat) :=
  mapOfFrom 0 s

/-- Embeds `Base::new` from src/src/lib.rs (lines 90-105): no validation at
all; the map keeps, for each character, its last index in the string. -/
def Base.new (s : List Char) : Base :=
  { base := s, vals := mapOf s }

/-- Embeds the loop of `impl FromStr for Base` from src/src/single_base.rs
(lines 63-84): walk the characters with their indices, and fail with a
`DuplicateCharacterError` as soon as `vals.insert(*c, i)` reports that the
key was already present (returning the stored earlier index). -/
def buildVals : List Char → Nat → List (Char × Nat) → Except DuplicateCharacterError (List (Char × Nat))
  | [], _, vals => .ok vals
  | c :: rest, i, vals =>
    match vals.lookup c with
    | some firstIdx => .error ⟨c, firstIdx, i⟩
    | none => buildVals rest (i + 1) ((c, i) :: vals)

/-- Embeds `impl FromStr for Base` from src/src/single_base.rs (lines 60-85):
the only construction path that rejects duplicate characters. -/
def sbFromStr (s : List Char) : Except DuplicateCharacterError Base :=
  match buildVals s 0 [] with
  | .error e => .error e
  | .ok vals => .ok { base := s, vals := vals }

/-- Embeds the accumulation loop shared by the `from_str!` macro of
src/src/lib.rs (lines 166-183), the `decode!` macro of src/src/single_base.rs
(lines 120-137) and the two `usize` impls (lib.rs lines 134-147, single_base.rs
lines 88-101): `val *= radix; val += *v` in wrapping `usize` arithmetic,
failing immediately on a character that is not in the map. -/
def fromStrLoop (b : Base) (val : Nat) : List Char → Except StrError Nat
  | [] => .ok val
  | c :: rest =>
    match b.getVal c with
    | none => .error (.UnknownChar c)
    | some v => fromStrLoop b ((val * b.base.length + v) % usizeSize) rest

/-- The accumulated `usize` value of `from_str`/`decode` before the final
conversion, starting from 0. -/
def fromStrNat (b : Base) (rep : List Char) : Except StrError Nat :=
  fromStrLoop b 0 rep

/-- Number of loop iterations `fromStrLoop` executes on `rep` (counting the
iteration that detects an unknown character); instruments the decode loop for
the termination bound. -/
def fromStrSteps (b : Base) : List Char → Nat
  | [] => 0
  | c :: rest =>
    match b.getVal c with
    | none => 1
    | some _ => 1 + fromStrSteps b rest

/-- The supported Rust integer types (src/src/lib.rs lines 210-274). -/
inductive IntTy where
  | u8 | u16 | u32 | u64 | u128 | usize
  | i8 | i16 | i32 | i64 | i128 | isize
  deriving DecidableEq, Repr

/-- Bit width of each supported type (64-bit platform). -/
def IntTy.bits : IntTy → Nat
  | .u8 => 8 | .u16 => 16 | .u32 => 32 | .u64 => 64 | .u128 => 128 | .usize => 64
  | .i8 => 8 | .i16 => 16 | .i32 => 32 | .i64 => 64 | .i128 => 128 | .isize => 64

/-- Whether the type is signed. -/
def IntTy.isSigned : IntTy → Bool
  | .i8 | .i16 | .i32 | .i64 | .i128 | .isize => true
  | _ => false

/-- The largest value of the type, as a natural number; `T::try_from(v: usize)`
succeeds exactly when `v` is at most this. -/
def IntTy.max (t : IntTy) : Nat :=
  if t.isSigned then 2 ^ (t.bits - 1) - 1 else 2 ^ t.bits - 1

/-- The smallest value of the type, as an integer. -/
def IntTy.min (t : IntTy) : Int :=
  if t.isSigned then -(2 ^ (t.bits - 1)) else 0

/-- Membership of an integer in the value range of the type. -/
def inRange (t : IntTy) (v : Int) : Prop :=
  t.min ≤ v ∧ v ≤ (t.max : Int)

instance (t : IntTy) (v : Int) : Decidable (inRange t v) :=
  inferInstanceAs (Decidable (t.min ≤ v ∧ v ≤ (t.max : Int)))

/-- The `as $utype` cast of the `iint!` macros (src/src/lib.rs line 263,
src/src/single_base.rs line 217): reinterpret the bit pattern as the unsigned
type of the same width, i.e. reduce modulo `2 ^ bits`. -/
def toUnsigned (t : IntTy) (v : Int) : Nat :=
  (v % ((2 ^ t.bits : Nat) : Int)).toNat

/-- Embeds `from_str`/`decode` for target type `t`: run the shared accumulation
loop, then the final `try_from` conversion. For the `usize` impls the Rust code
returns `val` directly, and for `u128`/`i128` the conversion from `usize` is
infallible; both agree with the uniform bound check below because the
accumulator is always below `2 ^ 64`. -/
def decodeT (t : IntTy) (b : Base) (rep : List Char) : Except StrError Int :=
  match fromStrNat b rep with
  | .error e => .error e
  | .ok val => if val ≤ t.max then .ok (val : Int) else .error .Try

/-- One fuel-counted unfolding of the `while div > 0` loop of `digits`/`encode`
(src/src/lib.rs lines 156-160, src/src/single_base.rs lines 110-114):
`rem = div % radix; div = div / radix; stack.push(self.base[rem])`.
The result is `none` when the loop does not finish within `fuel` iterations or
an index misses the digit table (possible only for the empty alphabet, where
the Rust code panics on division by zero first). -/
def digitsLoop (base : List Char) : Nat → Nat → List Char → Option (List Char)
  | _, 0, stack => some stack
  | 0, _ + 1, _ => none
  | fuel + 1, div + 1, stack =>
    match base[(div + 1) % base.length]? with
    | none => none
    | some c => digitsLoop base fuel ((div + 1) / base.length) (stack ++ [c])

/-- Embeds the body of `digits`/`encode` on the unsigned working value
(src/src/lib.rs lines 150-163): the pre-loop step
`rem = val % radix; stack.push(self.base[rem]); div = val / radix`, then the
loop, then `stack.reverse()`. The same modulo/divide loop is run by the
`small_uint!` impls after `usize::from`, by the narrow branch of `large_uint!`
after `usize::try_from` (exact for widths up to 64), and by the wide `u128`
branch in 128-bit arithmetic with each digit converted back by
`usize::try_from` (exact since every digit is below the radix); on `Nat` all
of these are the identical computation. -/
def digitsNat (base : List Char) (fuel val : Nat) : Option (List Char) :=
  match base[val % base.length]? with
  | none => none
  | some c => (digitsLoop base fuel (val / base.length) [c]).map List.reverse

/-- The `digits`/`encode` entry point on the unsigned working value, with fuel
`val` (shown sufficient for every radix at least 2, so `none` means the Rust
call panics or loops forever). -/
def digitsF (b : Base) (val : Nat) : Option (List Char) :=
  digitsNat b.base val val

/-- Embeds `digits`/`encode` for type `t`: a signed value is first cast
`as $utype` to the unsigned type of the same width (`iint!` macros), then the
unsigned value runs the modulo/divide loop. -/
def encodeT (t : IntTy) (b : Base) (v : Int) : Option (List Char) :=
  digitsF b (toUnsigned t v)

/-- Modelled from the spec: the "accumulated positional value" of section 4.2,
i.e. the exact mathematical value `value = value * radix + digit` computed
without any wrap-around, starting from accumulator `acc`; `none` on a character
that is not in the map. Used only to compare the wrapping accumulator of the
code against the ideal value. -/
def positionalValueFrom (b : Base) (acc : Nat) : List Char → Option Nat
  | [] => some acc
  | c :: rest =>
    match b.getVal c with
    | none => none
    | some v => positionalValueFrom b (acc * b.base.length + v) rest

/-- The exact positional value of `rep` in base `b`, starting from 0. -/
def positionalValue (b : Base) (rep : List Char) : Option Nat :=
  positionalValueFrom b 0 rep

/-- The value of a least-significant-first digit list in radix `r`. -/
def valLSB (r : Nat) (ds : List Nat) : Nat :=
  ds.foldr (fun d acc => acc * r + d) 0

/-- The character of the digit table at index `d` (total helper; used only
under the hypothesis `d < base.length`). -/
def charAt (base : List Char) (d : Nat) : Char :=
  base.getD d ' '

/-- The 57-character test alphabet of the crate (src/tests/tests.rs line 1). -/
def BASE57 : List Char :=
  "23456789abcdefghijkmnpqrstuvwxyzABCDEFGHIJKLMNPQRSTUVWXYZ".toList

/-- Appending one character to the digit string prepends its reverse-map entry. -/
theorem mapOfFrom_append (p : List Char) (a : Char) (i : Nat) :
    mapOfFrom i (p ++ [a]) = (a, i + p.length) :: mapOfFrom i p := by
  induction p generalizing i with
  | nil => simp [mapOfFrom]
  | cons c p ih =>
    show mapOfFrom (i + 1) (p ++ [a]) ++ [(c, i)] = _
    rw [ih]
    show ((a, i + 1 + p.length) :: mapOfFrom (i + 1) p) ++ [(c, i)] =
      (a, i + (c :: p).length) :: mapOfFrom i (c :: p)
    simp [mapOfFrom]
    omega

/-- Reverse lookup after appending one character: the new character maps to its
(last) index, all others keep their previous entry. -/
theorem getVal_new_append (p : List Char) (a c : Char) :
    (Base.new (p ++ [a])).getVal c =
      if c == a then some p.length else (Base.new p).getVal c := by
  show ((mapOf (p ++ [a])).lookup c) = _
  rw [mapOf, mapOfFrom_append, List.lookup_cons]
  cases h : c == a <;> simp [h, mapOf, Base.new, Base.getVal]

/-- Reverse lookup in a `Base::new` alphabet finds exactly the last index of
the character. -/
theorem getVal_new_eq_some_iff (s : List Char) (c : Char) (i : Nat) :
    (Base.new s).getVal c = some i ↔
      (s[i]? = some c ∧ ∀ j, i < j → s[j]? ≠ some c) := by
  induction s using List.reverseRecOn with
  | nil =>
    show (List.lookup c [] = some i) ↔ _
    simp
  | append_singleton p a ih =>
    rw [getVal_new_append]
    by_cases h : c = a
    · subst h
      rw [if_pos (by simp)]
      constructor
      · rintro h
        injection h with h
        subst h
        refine ⟨by simp [List.getElem?_concat_length], fun j hj hcj => ?_⟩
        have : j < p.length + 1 := by
          by_contra hge
          rw [List.getElem?_eq_none (by simp; omega)] at hcj
          exact Option.noConfusion hcj
        omega
      · rintro ⟨hi, hlast⟩
        have hilen : i < p.length + 1 := by
          have := (List.getElem?_eq_some_iff.mp hi).1
          simpa using this
        have : i = p.length := by
          by_contra hne
          have hlt : i < p.length := by omega
          exact hlast p.length hlt (by simp [List.getElem?_concat_length])
        simp [this]
    · have hbeq : (c == a) = false := by simp [h]
      rw [hbeq, if_neg (by simp)]
      rw [ih]
      constructor
      · rintro ⟨hi, hlast⟩
        have hilen : i < p.length := (List.getElem?_eq_some_iff.mp hi).1
        refine ⟨by rw [List.getElem?_append_left hilen]; exact hi, fun j hj hcj => ?_⟩
        by_cases hjlen : j < p.length
        · rw [List.getElem?_append_left hjlen] at hcj
          exact hlast j hj hcj
        · rw [List.getElem?_append_right (by omega)] at hcj
          have hj1 : j - p.length < 1 := by
            by_contra hge
            rw [List.getElem?_eq_none (by simp; omega)] at hcj
            exact Option.noConfusion hcj
          have : j = p.length := by omega
          subst this
          simp at hcj
          exact h hcj.symm
      · rintro ⟨hi, hlast⟩
        have hilen : i < p.length + 1 := by
          have := (List.getElem?_eq_some_iff.mp hi).1
          simpa using this
        have hne : i ≠ p.length := by
          intro he
          subst he
          rw [List.getElem?_append_right (by omega)] at hi
          simp at hi
          exact h hi.symm
        have hilt : i < p.length := by omega
        rw [List.getElem?_append_left hilt] at hi
        refine ⟨hi, fun j hj hcj => ?_⟩
        have hjlen : j < p.length := (List.getElem?_eq_some_iff.mp hcj).1
        exact hlast j hj (by rw [List.getElem?_append_left hjlen]; exact hcj)

/-- Reverse lookup in a `Base::new` alphabet misses exactly the characters that
do not occur in the digit string. -/
theorem getVal_new_eq_none_iff (s : List Char) (c : Char) :
    (Base.new s).getVal c = none ↔ c ∉ s := by
  induction s using List.reverseRecOn with
  | nil =>
    show (List.lookup c [] = none) ↔ _
    simp
  | append_singleton p a ih =>
    rw [getVal_new_append]
    by_cases h : c = a
    · subst h
      simp
    · have hbeq : (c == a) = false := by simp [h]
      rw [hbeq, if_neg (by simp)]
      simp [ih, h]

/-- On a duplicate-free alphabet the reverse lookup returns the index of every
character of the digit string. -/
theorem getVal_new_of_nodup (s : List Char) (hnd : s.Nodup) (i : Nat) (c : Char)
    (h : s[i]? = some c) : (Base.new s).getVal c = some i := by
  rw [getVal_new_eq_some_iff]
  refine ⟨h, fun j hj hcj => ?_⟩
  have hi : i < s.length := (List.getElem?_eq_some_iff.mp h).1
  have := List.getElem?_inj hi hnd (h.trans hcj.symm)
  omega

/-- A successful reverse lookup always yields an index below the radix. -/
theorem getVal_new_lt_length (s : List Char) (c : Char) (v : Nat)
    (h : (Base.new s).getVal c = some v) : v < s.length := by
  rw [getVal_new_eq_some_iff] at h
  exact (List.getElem?_eq_some_iff.mp h.1).1

/-- On a duplicate-free alphabet, looking up the character stored at index `d`
returns `d`. -/
theorem getVal_charAt (s : List Char) (hnd : s.Nodup) (d : Nat) (hd : d < s.length) :
    (Base.new s).getVal (charAt s d) = some d := by
  have hc : charAt s d = s[d] := by
    simp [charAt, List.getD_eq_getElem?_getD, List.getElem?_eq_getElem hd]
  rw [hc]
  exact getVal_new_of_nodup s hnd d _ (List.getElem?_eq_getElem hd)

/-- The decode loop fails with the unknown-character error whenever some
character of the input has no reverse-map entry, whatever the accumulator. -/
theorem fromStrLoop_unknown (b : Base) (rep : List Char)
    (h : ∃ c ∈ rep, b.getVal c = none) (acc : Nat) :
    ∃ u, u ∈ rep ∧ b.getVal u = none ∧
      fromStrLoop b acc rep = .error (.UnknownChar u) := by
  induction rep generalizing acc with
  | nil => simp at h
  | cons c rest ih =>
    cases hc : b.getVal c with
    | none => exact ⟨c, by simp, hc, by simp [fromStrLoop, hc]⟩
    | some v =>
      obtain ⟨u, hu, hun⟩ := h
      rcases List.mem_cons.mp hu with rfl | hmem
      · rw [hc] at hun
        exact Option.noConfusion hun
      · obtain ⟨u', h1, h2, h3⟩ := ih ⟨u, hmem, hun⟩ ((acc * b.base.length + v) % usizeSize)
        exact ⟨u', List.mem_cons_of_mem _ h1, h2, by simp [fromStrLoop, hc, h3]⟩

/-- The exact positional accumulation never decreases (every digit value of a
`Base::new` alphabet is below the radix, so the radix is positive at each
step). -/
theorem positionalValueFrom_mono (s : List Char) (rep : List Char) :
    ∀ acc n, positionalValueFrom (Base.new s) acc rep = some n → acc ≤ n := by
  induction rep with
  | nil =>
    intro acc n h
    simp [positionalValueFrom] at h
    omega
  | cons c rest ih =>
    intro acc n h
    cases hc : (Base.new s).getVal c with
    | none => simp [positionalValueFrom, hc] at h
    | some v =>
      simp only [positionalValueFrom, hc] at h
      have hlt : v < s.length := getVal_new_lt_length s c v hc
      have h1 : acc ≤ acc * (Base.new s).base.length + v := by
        have hb : (Base.new s).base.length = s.length := rfl
        have : acc * 1 ≤ acc * s.length := Nat.mul_le_mul_left acc (by omega)
        rw [hb]
        omega
      exact le_trans h1 (ih _ _ h)

/-- When the exact positional value fits in `usize`, the wrapping decode loop
computes it exactly. -/
theorem fromStrLoop_of_positional (s : List Char) (rep : List Char) :
    ∀ acc n, positionalValueFrom (Base.new s) acc rep = some n → n < usizeSize →
      fromStrLoop (Base.new s) acc rep = .ok n := by
  induction rep with
  | nil =>
    intro acc n h hn
    simp [positionalValueFrom] at h
    simp [fromStrLoop, h]
  | cons c rest ih =>
    intro acc n h hn
    cases hc : (Base.new s).getVal c with
    | none => simp [positionalValueFrom, hc] at h
    | some v =>
      simp only [positionalValueFrom, hc] at h
      have hle : acc * (Base.new s).base.length + v ≤ n :=
        positionalValueFrom_mono s rest _ n h
      have hmod : (acc * (Base.new s).base.length + v) % usizeSize =
          acc * (Base.new s).base.length + v := Nat.mod_eq_of_lt (by omega)
      simp only [fromStrLoop, hc, hmod]
      exact ih _ n h hn

/-- The encode loop, on a radix of at least 2, terminates within `fuel`
iterations whenever the running value is below `2 ^ fuel`, and the characters
it pushes are the least-significant-first digits of that value. -/
theorem digitsLoop_spec (base : List Char) (hr : 2 ≤ base.length) :
    ∀ fuel div stack, div < 2 ^ fuel →
      ∃ ds, (∀ d ∈ ds, d < base.length) ∧ valLSB base.length ds = div ∧
        digitsLoop base fuel div stack = some (stack ++ ds.map (charAt base)) := by
  intro fuel
  induction fuel with
  | zero =>
    intro div stack hdiv
    have : div = 0 := by simpa using hdiv
    subst this
    exact ⟨[], by simp, by simp [valLSB], by simp [digitsLoop]⟩
  | succ fuel ih =>
    intro div stack hdiv
    match div with
    | 0 => exact ⟨[], by simp, by simp [valLSB], by simp [digitsLoop]⟩
    | div + 1 =>
      have hrem : (div + 1) % base.length < base.length := Nat.mod_lt _ (by omega)
      have hchar : charAt base ((div + 1) % base.length) = base[(div + 1) % base.length] := by
        simp [charAt, List.getD_eq_getElem?_getD, List.getElem?_eq_getElem hrem]
      have hget : base[(div + 1) % base.length]? =
          some (charAt base ((div + 1) % base.length)) := by
        rw [hchar]
        exact List.getElem?_eq_getElem hrem
      have hdiv2 : (div + 1) / base.length < 2 ^ fuel := by
        have h1 : (div + 1) / base.length ≤ (div + 1) / 2 := Nat.div_le_div_left hr (by omega)
        have hpow : (2 : Nat) ^ (fuel + 1) = 2 * 2 ^ fuel := by
          rw [Nat.pow_succ]
          omega
        have h2 : (div + 1) / 2 < 2 ^ fuel := by
          apply Nat.div_lt_of_lt_mul
          omega
        omega
      obtain ⟨ds, hd1, hd2, hd3⟩ :=
        ih ((div + 1) / base.length) (stack ++ [charAt base ((div + 1) % base.length)]) hdiv2
      refine ⟨(div + 1) % base.length :: ds, ?_, ?_, ?_⟩
      · intro d hd
        rcases List.mem_cons.mp hd with rfl | hdm
        · exact hrem
        · exact hd1 d hdm
      · show valLSB base.length ds * base.length + (div + 1) % base.length = div + 1
        rw [hd2, Nat.mul_comm]
        exact Nat.div_add_mod (div + 1) base.length
      · show digitsLoop base (fuel + 1) (div + 1) stack = _
        rw [digitsLoop, hget]
        simp only [hd3]
        rw [List.append_assoc]
        rfl

/-- The body of `digits`/`encode` on a radix of at least 2: with fuel `fuel`
and a value below `2 ^ fuel` it returns the most-significant-first digit
string of the value. -/
theorem digitsNat_spec (base : List Char) (hr : 2 ≤ base.length) (fuel val : Nat)
    (hval : val < 2 ^ fuel) :
    ∃ ds, ds ≠ [] ∧ (∀ d ∈ ds, d < base.length) ∧ valLSB base.length ds = val ∧
      digitsNat base fuel val = some ((ds.map (charAt base)).reverse) := by
  have hrem : val % base.length < base.length := Nat.mod_lt _ (by omega)
  have hchar : charAt base (val % base.length) = base[val % base.length] := by
    simp [charAt, List.getD_eq_getElem?_getD, List.getElem?_eq_getElem hrem]
  have hget : base[val % base.length]? = some (charAt base (val % base.length)) := by
    rw [hchar]
    exact List.getElem?_eq_getElem hrem
  have hdiv : val / base.length < 2 ^ fuel :=
    lt_of_le_of_lt (Nat.div_le_self _ _) hval
  obtain ⟨ds, hd1, hd2, hd3⟩ :=
    digitsLoop_spec base hr fuel (val / base.length) [charAt base (val % base.length)] hdiv
  refine ⟨val % base.length :: ds, by simp, ?_, ?_, ?_⟩
  · intro d hd
    rcases List.mem_cons.mp hd with rfl | hdm
    · exact hrem
    · exact hd1 d hdm
  · show valLSB base.length ds * base.length + val % base.length = val
    rw [hd2, Nat.mul_comm]
    exact Nat.div_add_mod val base.length
  · rw [digitsNat, hget]
    show (digitsLoop base fuel (val / base.length) [charAt base (val % base.length)]).map List.reverse = _
    rw [hd3]
    rfl

/-- Decoding (exactly) a most-significant-first list of digit characters of a
duplicate-free alphabet accumulates the positional value of the digits. -/
theorem positionalValueFrom_map (s : List Char) (hnd : s.Nodup) (l : List Nat) :
    ∀ acc, (∀ d ∈ l, d < s.length) →
      positionalValueFrom (Base.new s) acc (l.map (charAt s)) =
        some (l.foldl (fun a d => a * s.length + d) acc) := by
  induction l with
  | nil => intro acc _; simp [positionalValueFrom]
  | cons d l ih =>
    intro acc hl
    have hd : d < s.length := hl d (by simp)
    have hv := getVal_charAt s hnd d hd
    show positionalValueFrom (Base.new s) acc (charAt s d :: l.map (charAt s)) = _
    rw [positionalValueFrom, hv]
    exact ih _ (fun x hx => hl x (List.mem_cons_of_mem _ hx))

/-- The encode loop only ever grows the digit stack. -/
theorem digitsLoop_length (base : List Char) :
    ∀ fuel div stack out, digitsLoop base fuel div stack = some out →
      stack.length ≤ out.length := by
  intro fuel
  induction fuel with
  | zero =>
    intro div stack out h
    match div with
    | 0 =>
      rw [digitsLoop] at h
      injection h with h
      subst h
      exact Nat.le_refl _
  | succ fuel ih =>
    intro div stack out h
    match div with
    | 0 =>
      rw [digitsLoop] at h
      injection h with h
      subst h
      exact Nat.le_refl _
    | div + 1 =>
      rw [digitsLoop] at h
      cases hget : base[(div + 1) % base.length]? with
      | none => rw [hget] at h; exact Option.noConfusion h
      | some c =>
        rw [hget] at h
        have := ih _ _ _ h
        simp at this
        omega

/-- On a single-character alphabet the encode loop never terminates for a
positive value: `div / 1 = div` never decreases, whatever the fuel. -/
theorem digitsLoop_one (c : Char) :
    ∀ fuel div stack, 0 < div → digitsLoop [c] fuel div stack = none := by
  intro fuel
  induction fuel with
  | zero =>
    intro div stack h
    match div with
    | div + 1 => rfl
  | succ fuel ih =>
    intro div stack h
    match div with
    | div + 1 =>
      rw [digitsLoop]
      have h1 : (div + 1) % ([c] : List Char).length = 0 := by
        simp only [List.length_singleton]
        omega
      have h2 : (div + 1) / ([c] : List Char).length = div + 1 := by
        simp only [List.length_singleton]
        omega
      rw [h1, h2]
      show digitsLoop [c] fuel (div + 1) (stack ++ [c]) = none
      exact ih (div + 1) (stack ++ [c]) h

/-- Largest value of each type is below `2 ^ bits`. -/
theorem IntTy.max_lt_two_pow (t : IntTy) : t.max < 2 ^ t.bits := by
  cases t <;> decide

/-- Round trip on the unsigned working value: for a duplicate-free alphabet of
radix at least 2 and a value that fits in `usize`, encoding terminates and
decoding the result re-accumulates exactly the value. -/
theorem roundTripNat (s : List Char) (hnd : s.Nodup) (hr : 2 ≤ s.length) (u : Nat)
    (hu : u < usizeSize) :
    ∃ out, digitsF (Base.new s) u = some out ∧ fromStrNat (Base.new s) out = .ok u := by
  have hfuel : u < 2 ^ u := Nat.lt_two_pow u
  obtain ⟨ds, hne, hlt, hval, hdig⟩ := digitsNat_spec s hr u u hfuel
  refine ⟨(ds.map (charAt s)).reverse, hdig, ?_⟩
  have hmap : (ds.map (charAt s)).reverse = ds.reverse.map (charAt s) := by
    rw [List.map_reverse]
  have hpos : positionalValueFrom (Base.new s) 0 ((ds.map (charAt s)).reverse) = some u := by
    rw [hmap, positionalValueFrom_map s hnd ds.reverse 0 (fun d hd => hlt d (by simpa using hd))]
    rw [List.foldl_reverse]
    show some (ds.foldr (fun d a => a * s.length + d) 0) = some u
    rw [show ds.foldr (fun d a => a * s.length + d) 0 = valLSB s.length ds from rfl, hval]
  exact fromStrLoop_of_positional s _ 0 u hpos hu

/-- Characterization of the `single_base` construction loop, generalized over
the processed prefix `p`: it succeeds exactly on duplicate-free inputs, and on
failure the reported character occurs at both reported positions, the first
position is the unique earlier occurrence, and everything strictly before the
second position is duplicate-free (so the two positions are the first and
second occurrences of the character). -/
theorem buildVals_spec (rest : List Char) :
    ∀ p : List Char, p.Nodup →
      ((∃ vals, buildVals rest p.length (mapOf p) = .ok vals) ↔ (p ++ rest).Nodup) ∧
      (∀ e, buildVals rest p.length (mapOf p) = .error e →
        (p ++ rest)[e.first]? = some e.dup ∧ (p ++ rest)[e.second]? = some e.dup ∧
        e.first < e.second ∧ ((p ++ rest).take e.second).Nodup) := by
  induction rest with
  | nil =>
    intro p hp
    refine ⟨⟨fun _ => by simpa using hp, fun _ => ⟨mapOf p, rfl⟩⟩, ?_⟩
    intro e he
    exact Except.noConfusion he
  | cons c rest ih =>
    intro p hp
    have hunfold : buildVals (c :: rest) p.length (mapOf p) =
        match (mapOf p).lookup c with
        | some firstIdx => .error ⟨c, firstIdx, p.length⟩
        | none => buildVals rest (p.length + 1) ((c, p.length) :: mapOf p) := rfl
    cases hc : (mapOf p).lookup c with
    | some firstIdx =>
      have hres : buildVals (c :: rest) p.length (mapOf p) =
          .error ⟨c, firstIdx, p.length⟩ := by rw [hunfold, hc]
      have hsome : (Base.new p).getVal c = some firstIdx := hc
      rw [getVal_new_eq_some_iff] at hsome
      obtain ⟨hgetp, _⟩ := hsome
      have hflt : firstIdx < p.length := (List.getElem?_eq_some_iff.mp hgetp).1
      have hcp : c ∈ p := List.mem_iff_getElem?.mpr ⟨firstIdx, hgetp⟩
      refine ⟨⟨?_, ?_⟩, ?_⟩
      · rintro ⟨vals, hv⟩
        rw [hres] at hv
        exact Except.noConfusion hv
      · intro hnd
        exfalso
        exact List.disjoint_of_nodup_append hnd hcp (by simp)
      · intro e he
        rw [hres] at he
        injection he with he
        subst he
        refine ⟨?_, ?_, hflt, ?_⟩
        · show (p ++ c :: rest)[firstIdx]? = some c
          rw [List.getElem?_append_left hflt]
          exact hgetp
        · show (p ++ c :: rest)[p.length]? = some c
          rw [List.getElem?_append_right (Nat.le_refl _)]
          simp
        · show ((p ++ c :: rest).take p.length).Nodup
          rw [List.take_left]
          exact hp
    | none =>
      have hnotin : c ∉ p := (getVal_new_eq_none_iff p c).mp hc
      have hres : buildVals (c :: rest) p.length (mapOf p) =
          buildVals rest (p.length + 1) ((c, p.length) :: mapOf p) := by
        rw [hunfold, hc]
      have hmap : ((c, p.length) :: mapOf p) = mapOf (p ++ [c]) := by
        rw [mapOf, mapOf, mapOfFrom_append]
        simp
      have hlen : p.length + 1 = (p ++ [c]).length := by simp
      have hp' : (p ++ [c]).Nodup := by
        rw [List.nodup_append]
        refine ⟨hp, List.nodup_singleton c, ?_⟩
        intro a ha hb
        simp at hb
        subst hb
        exact hnotin ha
      have happ : (p ++ [c]) ++ rest = p ++ c :: rest := by simp
      obtain ⟨ih1, ih2⟩ := ih (p ++ [c]) hp'
      rw [happ] at ih1 ih2
      rw [hres, hmap, hlen]
      exact ⟨ih1, ih2⟩

/-- Encoding the value 0 against a nonempty alphabet yields exactly the first
character, for any fuel. -/
theorem digitsNat_zero (c : Char) (rest : List Char) (fuel : Nat) :
    digitsNat (c :: rest) fuel 0 = some [c] := by
  have hm : (0 : Nat) % (c :: rest).length = 0 := Nat.zero_mod _
  have hd : (0 : Nat) / (c :: rest).length = 0 := Nat.zero_div _
  unfold digitsNat
  rw [hm, hd, List.getElem?_cons_zero]
  cases fuel <;> rfl

/-- C1 (counterexample): the claimed full round trip fails for negative signed
values: with the 57-character test alphabet, encoding `-1` at `i8` yields
`"6v"`, but decoding `"6v"` at `i8` is the range error, not `Ok(-1)`. -/
theorem c1_round_trip_counterexample :
    encodeT .i8 (Base.new BASE57) (-1) = some ['6', 'v'] ∧
    decodeT .i8 (Base.new BASE57) ['6', 'v'] = .error .Try ∧
    decodeT .i8 (Base.new BASE57) ['6', 'v'] ≠ .ok (-1) := by
  refine ⟨rfl, rfl, fun h => ?_⟩
  have h2 : decodeT .i8 (Base.new BASE57) ['6', 'v'] = .error .Try := rfl
  rw [h2] at h
  exact Except.noConfusion h

/-- C1 (amended): for every supported integer type, every duplicate-free
alphabet of radix at least 2, and every in-range value that is nonnegative and
whose unsigned working value fits in `usize`, decoding the string produced by
encoding the value succeeds and returns the value. -/
theorem c1_round_trip_amended (s : List Char) (t : IntTy) (v : Int)
    (hnd : s.Nodup) (hr : 2 ≤ s.length) (hv : inRange t v) (hnonneg : 0 ≤ v)
    (hfit : toUnsigned t v < usizeSize) :
    ∃ out, encodeT t (Base.new s) v = some out ∧
      decodeT t (Base.new s) out = .ok v := by
  have hmaxlt : t.max < 2 ^ t.bits := IntTy.max_lt_two_pow t
  have hcast : (t.max : Int) < ((2 ^ t.bits : Nat) : Int) := by exact_mod_cast hmaxlt
  have hvlt : v < ((2 ^ t.bits : Nat) : Int) := lt_of_le_of_lt hv.2 hcast
  have hu : toUnsigned t v = v.toNat := by
    unfold toUnsigned
    rw [Int.emod_eq_of_lt hnonneg hvlt]
  have humax : v.toNat ≤ t.max := by
    have h1 := hv.2
    omega
  obtain ⟨out, h1, h2⟩ := roundTripNat s hnd hr (toUnsigned t v) hfit
  refine ⟨out, h1, ?_⟩
  unfold decodeT
  rw [h2]
  show (if toUnsigned t v ≤ t.max then Except.ok ((toUnsigned t v : Nat) : Int)
    else Except.error StrError.Try) = Except.ok v
  rw [hu, if_pos humax, Int.toNat_of_nonneg hnonneg]

/-- C1 (witness): the amended round trip at a concrete instance. -/
theorem c1_round_trip_amended_witness :
    ∃ out, encodeT .u8 (Base.new ['0', '1']) 5 = some out ∧
      decodeT .u8 (Base.new ['0', '1']) out = .ok 5 :=
  c1_round_trip_amended ['0', '1'] .u8 5 (by decide) (by decide) (by decide)
    (by decide) (by decide)

/-- C2 (counterexample): decode does not reinterpret the accumulated unsigned
magnitude as a signed bit pattern: decoding the representation of the all-ones
`i8` pattern (value 255, string `"6v"`) yields the range error, not `-1`. -/
theorem c2_counterexample :
    decodeT .i8 (Base.new BASE57) ['6', 'v'] ≠ .ok (-1) ∧
    encodeT .u8 (Base.new BASE57) 255 = some ['6', 'v'] := by
  refine ⟨fun h => ?_, rfl⟩
  have h2 : decodeT .i8 (Base.new BASE57) ['6', 'v'] = .error .Try := rfl
  rw [h2] at h
  exact Except.noConfusion h

set_option maxRecDepth 16000 in
/-- C2 (amended): for signed targets decode performs a checked
magnitude-preserving conversion of the unsigned `usize` accumulator, not a
bit-pattern reinterpretation: every successful signed decode returns a
nonnegative value at most the signed maximum (so never `-1`); for signed
widths of at most 64 bits, decoding a representation of the all-ones bit
pattern therefore fails with the range error; for `i128` the accumulator
wraps first, so decoding the all-ones 128-bit representation returns the
wrapped value `Ok(2 ^ 64 - 1)` — still not `-1` and not a reinterpretation. -/
theorem c2_signed_decode_checked :
    (∀ (t : IntTy) (b : Base) (rep : List Char) (v : Int),
      t.isSigned = true → decodeT t b rep = .ok v →
      0 ≤ v ∧ v ≤ (t.max : Int)) ∧
    (∀ (t : IntTy) (s rep : List Char),
      t.isSigned = true → t.bits ≤ 64 →
      positionalValue (Base.new s) rep = some (2 ^ t.bits - 1) →
      decodeT t (Base.new s) rep = .error .Try) ∧
    decodeT .i128 (Base.new ['0', '1']) (List.replicate 128 '1') =
      .ok ((2 ^ 64 - 1 : Nat) : Int) := by
  refine ⟨?_, ?_, rfl⟩
  · intro t b rep v _hs h
    unfold decodeT at h
    cases hval : fromStrNat b rep with
    | error e =>
      rw [hval] at h
      exact Except.noConfusion h
    | ok val =>
      rw [hval] at h
      have h2 : (if val ≤ t.max then (Except.ok (val : Int) : Except StrError Int)
        else .error .Try) = .ok v := h
      by_cases hle : val ≤ t.max
      · rw [if_pos hle] at h2
        injection h2 with h2
        subst h2
        exact ⟨Int.natCast_nonneg val, by exact_mod_cast hle⟩
      · rw [if_neg hle] at h2
        exact Except.noConfusion h2
  · intro t s rep hs hb hpos
    have hpow : (2 : Nat) ^ t.bits ≤ 2 ^ 64 := Nat.pow_le_pow_right (by omega) hb
    have hn : (2 ^ t.bits - 1 : Nat) < usizeSize := by
      have : usizeSize = 2 ^ 64 := rfl
      omega
    have hok := fromStrLoop_of_positional s rep 0 (2 ^ t.bits - 1) hpos hn
    have hb1 : 1 ≤ t.bits := by cases t <;> simp [IntTy.bits]
    have hmax : t.max = 2 ^ (t.bits - 1) - 1 := by
      unfold IntTy.max
      rw [hs]
      rfl
    have hlt : (2 : Nat) ^ (t.bits - 1) < 2 ^ t.bits :=
      Nat.pow_lt_pow_right (by omega) (by omega)
    have hneg : ¬ (2 ^ t.bits - 1 ≤ t.max) := by
      rw [hmax]
      have h1 : (1 : Nat) ≤ 2 ^ (t.bits - 1) := Nat.one_le_two_pow
      omega
    unfold decodeT fromStrNat
    rw [hok]
    show (if 2 ^ t.bits - 1 ≤ t.max then
      Except.ok (((2 ^ t.bits - 1 : Nat) : Int)) else Except.error StrError.Try) =
      Except.error StrError.Try
    rw [if_neg hneg]

/-- C2 (witness): the amended contract at concrete instances: a successful
signed decode is within the bound, and the all-ones `i8` representation (eight
binary ones, value 255) decodes to the range error. -/
theorem c2_signed_decode_checked_witness :
    (0 ≤ (1 : Int) ∧ (1 : Int) ≤ ((IntTy.max .i8 : Nat) : Int)) ∧
    decodeT .i8 (Base.new ['0', '1']) (List.replicate 8 '1') = .error .Try :=
  ⟨c2_signed_decode_checked.1 .i8 (Base.new BASE57) ['3'] 1 rfl rfl,
    c2_signed_decode_checked.2.1 .i8 ['0', '1'] (List.replicate 8 '1') rfl
      (by decide) (by decide)⟩

/-- C3: against the 57-character test alphabet, encoding `-1` at `i8` yields
`"6v"`; decoding `"6v"` at `i8` fails with the integer-conversion (range)
error; decoding `"6v"` at `u8` succeeds with value 255. -/
theorem c3_base57_signed_overflow :
    BASE57.length = 57 ∧
    encodeT .i8 (Base.new BASE57) (-1) = some ['6', 'v'] ∧
    decodeT .i8 (Base.new BASE57) ['6', 'v'] = .error .Try ∧
    decodeT .u8 (Base.new BASE57) ['6', 'v'] = .ok 255 :=
  ⟨rfl, rfl, rfl, rfl⟩

set_option maxRecDepth 8000 in
/-- C4 (counterexample): decode accumulates in 64-bit `usize` with wrap-around,
not in a type wide enough for the target: with a binary alphabet, the
65-character string whose positional value is `2 ^ 64` (within the `u128`
range) decodes at `u128` to the wrapped value `Ok(0)` instead of the exact
value or a range error. -/
theorem c4_counterexample :
    positionalValue (Base.new ['0', '1']) ('1' :: List.replicate 64 '0') =
      some (2 ^ 64) ∧
    (2 ^ 64 : Nat) ≤ IntTy.max .u128 ∧
    decodeT .u128 (Base.new ['0', '1']) ('1' :: List.replicate 64 '0') = .ok 0 ∧
    (0 : Int) ≠ ((2 ^ 64 : Nat) : Int) := by
  refine ⟨rfl, by decide, rfl, by decide⟩

/-- C4 (amended): whenever the exact positional value of the input fits in the
64-bit `usize` accumulator, decode returns it exactly when it is within the
target range and the range error (a constructor distinct from the
unknown-character error) otherwise; for larger positional values the
accumulator wraps. -/
theorem c4_decode_exact_when_fits (t : IntTy) (s rep : List Char) (n : Nat)
    (hpos : positionalValue (Base.new s) rep = some n) (hn : n < usizeSize) :
    decodeT t (Base.new s) rep =
      if n ≤ t.max then .ok (n : Int) else .error .Try := by
  have h := fromStrLoop_of_positional s rep 0 n hpos hn
  unfold decodeT fromStrNat
  rw [h]

/-- C4 (witness): the amended behaviour at a concrete overflowing decode. -/
theorem c4_decode_exact_when_fits_witness :
    decodeT .u8 (Base.new ['0', '1']) (List.replicate 9 '1') =
      if 511 ≤ IntTy.max .u8 then .ok ((511 : Nat) : Int) else .error .Try :=
  c4_decode_exact_when_fits .u8 ['0', '1'] (List.replicate 9 '1') 511
    (by decide) (by decide)

/-- C5 (counterexample): the `lib.rs` construction path `Base::new` does not
fail on a duplicated character: on input `"aa"` it silently produces a
structure (whose reverse lookup maps the character to its last index). -/
theorem c5_counterexample :
    (Base.new ['a', 'a']).base = ['a', 'a'] ∧
    (Base.new ['a', 'a']).getVal 'a' = some 1 :=
  ⟨rfl, rfl⟩

/-- C5 (amended): the `single_base` `FromStr` construction path fails on
exactly the inputs with a repeated character, and its error names the repeated
character together with its first and second zero-based occurrences (the
prefix before the second position is duplicate-free, so the two reported
positions are the first two occurrences); the `lib.rs` `Base::new` path
performs no validation and always returns a structure. -/
theorem c5_construction_validation (s : List Char) :
    ((∃ b, sbFromStr s = .ok b) ↔ s.Nodup) ∧
    (∀ e, sbFromStr s = .error e →
      s[e.first]? = some e.dup ∧ s[e.second]? = some e.dup ∧
      e.first < e.second ∧ (s.take e.second).Nodup) ∧
    (Base.new s).base = s := by
  obtain ⟨h1, h2⟩ := buildVals_spec s [] List.nodup_nil
  simp only [List.length_nil, List.nil_append, show mapOf [] = [] from rfl] at h1 h2
  refine ⟨?_, ?_, rfl⟩
  · constructor
    · rintro ⟨b, hb⟩
      apply h1.mp
      unfold sbFromStr at hb
      cases hv : buildVals s 0 [] with
      | error e =>
        rw [hv] at hb
        exact Except.noConfusion hb
      | ok vals => exact ⟨vals, rfl⟩
    · intro hnd
      obtain ⟨vals, hv⟩ := h1.mpr hnd
      refine ⟨⟨s, vals⟩, ?_⟩
      unfold sbFromStr
      rw [hv]
  · intro e he
    unfold sbFromStr at he
    cases hv : buildVals s 0 [] with
    | error e2 =>
      rw [hv] at he
      injection he with he
      subst he
      exact h2 e2 hv
    | ok vals =>
      rw [hv] at he
      exact Except.noConfusion he

/-- C5 (witness): the amended error contract at a concrete duplicated input. -/
theorem c5_construction_validation_witness :
    (['a', 'b', 'a'] : List Char)[0]? = some 'a' ∧
    (['a', 'b', 'a'] : List Char)[2]? = some 'a' ∧
    (0 : Nat) < 2 ∧ ((['a', 'b', 'a'] : List Char).take 2).Nodup :=
  (c5_construction_validation ['a', 'b', 'a']).2.1 ⟨'a', 0, 2⟩ rfl

/-- C6: for every target type, every alphabet, and every input string that
contains a character outside the alphabet, decode fails with the
unknown-character error carrying such a character (the one the left-to-right
scan hits), wherever in the string it occurs, and returns no partial result. -/
theorem c6_unknown_character (t : IntTy) (s rep : List Char)
    (h : ∃ c ∈ rep, c ∉ s) :
    ∃ u, u ∈ rep ∧ u ∉ s ∧
      decodeT t (Base.new s) rep = .error (.UnknownChar u) := by
  obtain ⟨c, hc, hcs⟩ := h
  obtain ⟨u, h1, h2, h3⟩ := fromStrLoop_unknown (Base.new s) rep
    ⟨c, hc, (getVal_new_eq_none_iff s c).mpr hcs⟩ 0
  refine ⟨u, h1, (getVal_new_eq_none_iff s u).mp h2, ?_⟩
  unfold decodeT fromStrNat
  rw [h3]

/-- C6 (witness): the unknown-character failure at the concrete test input
`"35["` of the crate. -/
theorem c6_unknown_character_witness :
    ∃ u, u ∈ ['3', '5', '['] ∧ u ∉ BASE57 ∧
      decodeT .usize (Base.new BASE57) ['3', '5', '['] = .error (.UnknownChar u) :=
  c6_unknown_character .usize BASE57 ['3', '5', '['] ⟨'[', by decide, by decide⟩

/-- C7 (counterexample): the empty alphabet is not rejected at construction:
both construction paths accept it, a radix-0 `Base` is reachable through the
public surface, and `encode` against it reaches the division by the zero
radix (no normal return). -/
theorem c7_counterexample :
    sbFromStr ([] : List Char) = .ok ⟨[], []⟩ ∧
    (Base.new ([] : List Char)).base.length = 0 ∧
    digitsF (Base.new ([] : List Char)) 1 = none :=
  ⟨rfl, rfl, rfl⟩

/-- C7 (amended): no construction path rejects the empty alphabet: a radix-0
`Base` is constructible from the public surface, and every `encode` call
against the empty digit table has no normal return (the first `val % radix`
step divides by zero). -/
theorem c7_radix_zero_reachable :
    (∃ b, sbFromStr ([] : List Char) = .ok b) ∧
    (Base.new ([] : List Char)).base = [] ∧
    (∀ fuel val, digitsNat [] fuel val = none) :=
  ⟨⟨⟨[], []⟩, rfl⟩, rfl, fun _ _ => rfl⟩

/-- C8: the decode loop runs at most one iteration per input character; the
encode loop on a radix of at least 2 terminates with fuel bounded by the bit
width of the value, so the public encode entry always returns a string; on a
radix-1 alphabet the divide step never reduces the value and the encode loop
finishes for no fuel when the value is nonzero. -/
theorem c8_termination :
    (∀ b rep, fromStrSteps b rep ≤ rep.length) ∧
    (∀ (base : List Char) fuel val, 2 ≤ base.length → val < 2 ^ fuel →
      (digitsNat base fuel val).isSome) ∧
    (∀ (t : IntTy) (b : Base) (v : Int), 2 ≤ b.base.length →
      ∃ out, encodeT t b v = some out) ∧
    (∀ (c : Char) fuel val, 0 < val → digitsNat [c] fuel val = none) := by
  refine ⟨?_, ?_, ?_, ?_⟩
  · intro b rep
    induction rep with
    | nil => simp [fromStrSteps]
    | cons c rest ih =>
      cases hc : b.getVal c with
      | none =>
        simp only [fromStrSteps, hc, List.length_cons]
        omega
      | some v =>
        simp only [fromStrSteps, hc, List.length_cons]
        omega
  · intro base fuel val h2 hval
    obtain ⟨ds, _, _, _, hd⟩ := digitsNat_spec base h2 fuel val hval
    rw [hd]
    rfl
  · intro t b v h2
    have hfuel : toUnsigned t v < 2 ^ toUnsigned t v := Nat.lt_two_pow _
    obtain ⟨ds, _, _, _, hd⟩ :=
      digitsNat_spec b.base h2 (toUnsigned t v) (toUnsigned t v) hfuel
    exact ⟨_, hd⟩
  · intro c fuel val hval
    match val, hval with
    | val + 1, _ =>
      have h1 : (val + 1) % ([c] : List Char).length = 0 := by
        simp only [List.length_singleton]
        omega
      have h2 : (val + 1) / ([c] : List Char).length = val + 1 := by
        simp only [List.length_singleton]
        omega
      unfold digitsNat
      rw [h1, h2, List.getElem?_cons_zero]
      show (digitsLoop [c] fuel (val + 1) [c]).map List.reverse = none
      rw [digitsLoop_one c fuel (val + 1) [c] (by omega)]
      rfl

/-- C8 (witness): the termination bounds at concrete instances. -/
theorem c8_termination_witness :
    fromStrSteps (Base.new ['0', '1']) ['1', '0'] ≤ 2 ∧
    (digitsNat ['0', '1'] 64 5).isSome ∧
    (∃ out, encodeT .u8 (Base.new ['0', '1']) 3 = some out) ∧
    digitsNat ['a'] 9 2 = none := by
  obtain ⟨h1, h2, h3, h4⟩ := c8_termination
  exact ⟨h1 (Base.new ['0', '1']) ['1', '0'], h2 ['0', '1'] 64 5 (by decide) (by decide),
    h3 .u8 (Base.new ['0', '1']) 3 (by decide), h4 'a' 9 2 (by decide)⟩

/-- C9: encoding the value 0 against any nonempty alphabet yields exactly the
first character of the alphabet, for every supported integer type; and every
string encode returns is nonempty. -/
theorem c9_zero_encoding :
    (∀ (t : IntTy) (c : Char) (rest : List Char),
      encodeT t (Base.new (c :: rest)) 0 = some [c]) ∧
    (∀ (t : IntTy) (b : Base) (v : Int) out,
      encodeT t b v = some out → out ≠ []) := by
  constructor
  · intro t c rest
    have h0 : toUnsigned t 0 = 0 := by
      unfold toUnsigned
      norm_num
    show digitsNat (c :: rest) (toUnsigned t 0) (toUnsigned t 0) = some [c]
    rw [h0]
    exact digitsNat_zero c rest 0
  · intro t b v out h
    have h2 : digitsNat b.base (toUnsigned t v) (toUnsigned t v) = some out := h
    unfold digitsNat at h2
    cases hget : b.base[(toUnsigned t v) % b.base.length]? with
    | none =>
      rw [hget] at h2
      exact Option.noConfusion h2
    | some c0 =>
      rw [hget] at h2
      have h3 : (digitsLoop b.base (toUnsigned t v)
          ((toUnsigned t v) / b.base.length) [c0]).map List.reverse = some out := h2
      cases hloop : digitsLoop b.base (toUnsigned t v)
          ((toUnsigned t v) / b.base.length) [c0] with
      | none =>
        rw [hloop] at h3
        exact Option.noConfusion h3
      | some st =>
        rw [hloop] at h3
        injection h3 with h3
        subst h3
        have hlen := digitsLoop_length b.base _ _ _ _ hloop
        simp only [List.length_singleton] at hlen
        intro hemp
        rw [List.reverse_eq_nil_iff] at hemp
        subst hemp
        simp at hlen

/-- C9 (witness): zero encodes to the first character at a concrete instance,
and that output is nonempty. -/
theorem c9_zero_encoding_witness :
    encodeT .u8 (Base.new ['x', 'y']) 0 = some ['x'] ∧ (['x'] : List Char) ≠ [] :=
  ⟨c9_zero_encoding.1 .u8 'x' ['y'],
    c9_zero_encoding.2 .u8 (Base.new ['x', 'y']) 0 ['x']
      (c9_zero_encoding.1 .u8 'x' ['y'])⟩

/-- C10: `Base::new` never fails and performs no duplicate validation: the
digits vector (and hence the `Display` rendering) retains every occurrence of
the input string, the reverse lookup maps a character to its last zero-based
index, and on the duplicated alphabet `"aba"` encode and decode consequently
disagree about the value of the duplicated character (encoding 0 prints its
first occurrence while decoding that same character yields 2). -/
theorem c10_base_new_last_index :
    (∀ s, (Base.new s).base = s) ∧
    (∀ s (c : Char) (i : Nat), (Base.new s).getVal c = some i ↔
      (s[i]? = some c ∧ ∀ j, i < j → s[j]? ≠ some c)) ∧
    ((Base.new ['a', 'b', 'a']).getVal 'a' = some 2 ∧
      encodeT .usize (Base.new ['a', 'b', 'a']) 0 = some ['a'] ∧
      decodeT .usize (Base.new ['a', 'b', 'a']) ['a'] = .ok 2 ∧ (2 : Int) ≠ 0) :=
  ⟨fun _ => rfl, getVal_new_eq_some_iff, rfl, rfl, rfl, by decide⟩

/-- C10 (witness): the last-index lookup characterization at a concrete
duplicated alphabet. -/
theorem c10_base_new_last_index_witness :
    (['b', 'b'] : List Char)[1]? = some 'b' ∧
    ∀ j, 1 < j → (['b', 'b'] : List Char)[j]? ≠ some 'b' :=
  (c10_base_new_last_index.2.1 ['b', 'b'] 'b' 1).mp rfl

end Based
